import Mathlib

/-!
Verification of the learning/evaluation engine in `train.py`.

The development shallowly embeds the numpy/pandas code as pure Lean
functions: a dataframe row is a pair of a label list and a quantity list,
matrices are lists of rows, probabilities are rationals and quantities
natural numbers.  Part identifiers (strings in the Python code) are
represented by natural numbers; nothing below depends on the identifier
type beyond decidable equality, and `np.unique`'s sorted order is modelled
on that carrier.
-/

namespace Train

/-- `l.getD i d` past the end of the list returns the default. -/
theorem getD_of_le (d : α) : ∀ (l : List α) (i : Nat), l.length ≤ i → l.getD i d = d
  | [], _, _ => rfl
  | _ :: _, 0, h => absurd h (by simp)
  | _ :: xs, i + 1, h => getD_of_le d xs i (Nat.le_of_succ_le_succ h)

/-- `getD` on a mapped list, inside bounds. -/
theorem getD_map (f : α → β) (d : β) (a : α) :
    ∀ (l : List α) (i : Nat), i < l.length → (l.map f).getD i d = f (l.getD i a)
  | [], i, h => absurd h (by simp)
  | _ :: _, 0, _ => rfl
  | _ :: xs, i + 1, h => getD_map f d a xs i (Nat.lt_of_succ_lt_succ h)

/-- An in-bounds `getD` returns a member of the list. -/
theorem getD_mem_of_lt (d : α) :
    ∀ (l : List α) (i : Nat), i < l.length → l.getD i d ∈ l
  | [], i, h => absurd h (by simp)
  | _ :: _, 0, _ => List.mem_cons_self _ _
  | _ :: xs, i + 1, h =>
      List.mem_cons_of_mem _ (getD_mem_of_lt d xs i (Nat.lt_of_succ_lt_succ h))

/-- Largest element of a list of naturals (`0` on the empty list); this is
how the bound for a faithful `np.unique` / `np.bincount` model is taken. -/
def maxElem (xs : List Nat) : Nat := xs.foldr max 0

theorem le_maxElem : ∀ {xs : List Nat} {v : Nat}, v ∈ xs → v ≤ maxElem xs
  | x :: xs, v, h => by
    rcases List.mem_cons.1 h with rfl | h
    · exact Nat.le_max_left _ _
    · exact Nat.le_trans (le_maxElem h) (Nat.le_max_right _ _)

/-- Model of `np.unique`: the distinct values of `xs` in ascending order. -/
def uniqueSorted (xs : List Nat) : List Nat :=
  (List.range (maxElem xs + 1)).filter (fun v => v ∈ xs)

theorem mem_uniqueSorted {xs : List Nat} {v : Nat} : v ∈ uniqueSorted xs ↔ v ∈ xs := by
  constructor
  · intro h
    exact of_decide_eq_true (List.mem_filter.1 h).2
  · intro h
    refine List.mem_filter.2 ⟨List.mem_range.2 ?_, decide_eq_true h⟩
    exact Nat.lt_succ_of_le (le_maxElem h)

theorem uniqueSorted_ne_nil {xs : List Nat} (h : xs ≠ []) : uniqueSorted xs ≠ [] := by
  rcases xs with _ | ⟨x, xs⟩
  · exact absurd rfl h
  · intro hnil
    have : x ∈ uniqueSorted (x :: xs) := mem_uniqueSorted.2 (List.mem_cons_self _ _)
    rw [hnil] at this
    exact List.not_mem_nil _ this

/-- A list whose distinct-value list has length `< 2` has all its elements
equal (this is the `len(np.unique(...)) < 2` test in the code). -/
theorem all_eq_of_uniqueSorted_short {xs : List Nat}
    (h : (uniqueSorted xs).length < 2) : ∀ a ∈ xs, ∀ b ∈ xs, a = b := by
  intro a ha b hb
  by_contra hne
  have ha' : a ∈ uniqueSorted xs := mem_uniqueSorted.2 ha
  have hb' : b ∈ uniqueSorted xs := mem_uniqueSorted.2 hb
  rcases huniq : uniqueSorted xs with _ | ⟨x, l⟩
  · rw [huniq] at ha'; exact List.not_mem_nil _ ha'
  · rcases l with _ | ⟨y, l⟩
    · rw [huniq] at ha' hb'
      have h1 : a = x := List.mem_singleton.1 ha'
      have h2 : b = x := List.mem_singleton.1 hb'
      exact hne (h1.trans h2.symm)
    · rw [huniq] at h; simp at h; omega

/-- Conversely, if all elements of a non-trivial list are equal then the
distinct-value list has length `< 2`. -/
theorem uniqueSorted_short_of_all_eq {xs : List Nat}
    (h : ∀ a ∈ xs, ∀ b ∈ xs, a = b) : (uniqueSorted xs).length < 2 := by
  by_contra hlen
  push_neg at hlen
  have hnodup : (uniqueSorted xs).Nodup := (List.nodup_range _).filter _
  rcases huniq : uniqueSorted xs with _ | ⟨x, l⟩
  · rw [huniq] at hlen; simp at hlen
  · rcases l with _ | ⟨y, l⟩
    · rw [huniq] at hlen; simp at hlen
    · rw [huniq] at hnodup
      have hxy : x ≠ y := by
        intro hxy
        rw [hxy] at hnodup
        simp [List.nodup_cons] at hnodup
      have hx : x ∈ xs := mem_uniqueSorted.1 (huniq ▸ List.mem_cons_self _ _)
      have hy : y ∈ xs := mem_uniqueSorted.1
        (huniq ▸ List.mem_cons_of_mem _ (List.mem_cons_self _ _))
      exact hxy (h x hx y hy)

/-! ## `make_targets` (train.py lines 153-161)

`Y_bin = MultiLabelBinarizer().fit_transform(df[TARGET_COL])` gives the
binary presence matrix over the sorted distinct labels; `Y_cnt` is built
per row from the Python dict `{p: q for p, q in zip(labels, quantities)}`
(`zip` truncates to the shorter list, a duplicated key keeps the last
quantity) via `mapping.get(cls, 0)` for each class. -/

/-- Python-dict lookup for a dict built by insertion in list order:
the LAST binding of a key wins, `none` when the key is absent. -/
def dictGet : List (Nat × Nat) → Nat → Option Nat
  | [], _ => none
  | (a, b) :: rest, c =>
    match dictGet rest c with
    | some q => some q
    | none => if c = a then some b else none

theorem dictGet_cons (a b c : Nat) (rest : List (Nat × Nat)) :
    dictGet ((a, b) :: rest) c =
      match dictGet rest c with
      | some q => some q
      | none => if c = a then some b else none := rfl

theorem dictGet_eq_none_of_not_mem {c : Nat} :
    ∀ {labels qtys : List Nat}, c ∉ labels → dictGet (labels.zip qtys) c = none := by
  intro labels
  induction labels with
  | nil => intro qtys _; cases qtys <;> rfl
  | cons a rest ih =>
    intro qtys hc
    cases qtys with
    | nil => rfl
    | cons b qs =>
      have hca : c ≠ a := fun h => hc (h ▸ List.mem_cons_self _ _)
      have hrest : c ∉ rest := fun h => hc (List.mem_cons_of_mem _ h)
      have hz : (a :: rest).zip (b :: qs) = (a, b) :: rest.zip qs := rfl
      rw [hz, dictGet_cons, ih hrest]
      simp [hca]

theorem dictGet_mem_some {c : Nat} :
    ∀ {labels qtys : List Nat}, c ∈ labels → labels.length = qtys.length →
      ∃ q ∈ qtys, dictGet (labels.zip qtys) c = some q := by
  intro labels
  induction labels with
  | nil => intro _ hc _; exact absurd hc (List.not_mem_nil _)
  | cons a rest ih =>
    intro qtys hc hlen
    cases qtys with
    | nil => simp at hlen
    | cons b qs =>
      have hlen' : rest.length = qs.length := Nat.succ_injective hlen
      have hz : (a :: rest).zip (b :: qs) = (a, b) :: rest.zip qs := rfl
      by_cases hrest : c ∈ rest
      · obtain ⟨q, hq, hget⟩ := ih hrest hlen'
        exact ⟨q, List.mem_cons_of_mem _ hq, by rw [hz, dictGet_cons, hget]⟩
      · have hca : c = a := by
          rcases List.mem_cons.1 hc with h | h
          · exact h
          · exact absurd h hrest
        refine ⟨b, List.mem_cons_self _ _, ?_⟩
        rw [hz, dictGet_cons, dictGet_eq_none_of_not_mem hrest]
        simp [hca]

/-- One dataframe row: `(label_list, quantity_list)`. -/
abbrev Row := List Nat × List Nat

/-- The fitted label space: sorted distinct labels of all rows
(`MultiLabelBinarizer.classes_`). -/
def mlbClasses (df : List Row) : List Nat :=
  uniqueSorted (df.flatMap Prod.fst)

/-- One row of `Y_bin`: `1` exactly at the classes present in the row. -/
def ybinRow (classes : List Nat) (r : Row) : List Nat :=
  classes.map (fun c => if c ∈ r.1 then 1 else 0)

/-- One row of `Y_cnt`: `cnt_vec` in the code, `mapping.get(cls, 0)` over
the dict zipped from the label and quantity lists. -/
def cntRow (classes : List Nat) (r : Row) : List Nat :=
  classes.map (fun c => (dictGet (r.1.zip r.2) c).getD 0)

/-- `make_targets` restricted to its target-matrix outputs `(Y_bin, Y_cnt)`
(the feature columns `X` and the binarizer itself carry no further data). -/
def make_targets (df : List Row) : List (List Nat) × List (List Nat) :=
  (df.map (ybinRow (mlbClasses df)), df.map (cntRow (mlbClasses df)))

/-- Claim C1: for a dataframe whose quantity lists are positionally aligned with
the label lists and contain only positive integers, the matrices
`(Y_bin, Y_cnt)` returned by `make_targets` satisfy, at every row `i` and
label index `l`, `Y_cnt[i,l] > 0 ↔ Y_bin[i,l] = 1`. -/
theorem C1_make_targets_roundtrip (df : List Row)
    (halign : ∀ r ∈ df, r.1.length = r.2.length)
    (hpos : ∀ r ∈ df, ∀ q ∈ r.2, 0 < q) (i l : Nat) :
    0 < ((make_targets df).2.getD i []).getD l 0 ↔
      ((make_targets df).1.getD i []).getD l 0 = 1 := by
  simp only [make_targets]
  by_cases hi : i < df.length
  · rw [getD_map (cntRow (mlbClasses df)) [] (([], []) : Row) df i hi,
      getD_map (ybinRow (mlbClasses df)) [] (([], []) : Row) df i hi]
    set r := df.getD i (([], []) : Row) with hr
    have hrmem : r ∈ df := getD_mem_of_lt _ df i hi
    simp only [cntRow, ybinRow]
    by_cases hl : l < (mlbClasses df).length
    · rw [getD_map (fun c => (dictGet (r.1.zip r.2) c).getD 0) 0 0 (mlbClasses df) l hl,
        getD_map (fun c => if c ∈ r.1 then 1 else 0) 0 0 (mlbClasses df) l hl]
      set c := (mlbClasses df).getD l 0
      by_cases hc : c ∈ r.1
      · obtain ⟨q, hq, hget⟩ := dictGet_mem_some hc (halign r hrmem)
        rw [hget]
        exact iff_of_true (by simpa using hpos r hrmem q hq) (by simp [hc])
      · rw [dictGet_eq_none_of_not_mem hc]
        simp [hc]
    · push_neg at hl
      rw [getD_of_le 0 _ l (by simpa using hl), getD_of_le 0 _ l (by simpa using hl)]
      simp
  · push_neg at hi
    rw [getD_of_le [] _ i (by simpa using hi), getD_of_le [] _ i (by simpa using hi)]
    simp

/-- Concrete instantiation of `C1_make_targets_roundtrip` on a two-row
dataframe with classes `{3, 5}`. -/
theorem C1_make_targets_roundtrip_witness :
    0 < ((make_targets [([3, 5], [2, 1]), ([5], [4])]).2.getD 0 []).getD 0 0 ↔
      ((make_targets [([3, 5], [2, 1]), ([5], [4])]).1.getD 0 []).getD 0 0 = 1 :=
  C1_make_targets_roundtrip [([3, 5], [2, 1]), ([5], [4])]
    (by decide) (by decide) 0 0

/-! ## Ranking-metric helpers (train.py lines 67-124)

Per-row truth sets come from `np.where(row == 1)[0]` and are ascending,
duplicate-free index lists, so Python's set cardinalities are list
lengths here. -/

/-- Model of `np.where(row == 1)[0]` starting at index `j`: the ascending
list of the positions holding the value `1`. -/
def whereOne : List Nat → Nat → List Nat
  | [], _ => []
  | x :: xs, j => if x = 1 then j :: whereOne xs (j + 1) else whereOne xs (j + 1)

/-- `set(np.where(y_true[i] == 1)[0])`: the truth set of a row. -/
def trueSet (row : List Nat) : List Nat := whereOne row 0

theorem whereOne_length : ∀ (xs : List Nat) (j : Nat),
    (whereOne xs j).length = xs.countP (fun x => x = 1)
  | [], _ => rfl
  | x :: xs, j => by
    by_cases hx : x = 1
    · simp [whereOne, hx, List.countP_cons, whereOne_length xs (j + 1)]
    · simp [whereOne, hx, List.countP_cons, whereOne_length xs (j + 1)]

/-- A 0/1 row sums to the number of its `1` entries. -/
theorem sum_eq_countP_of_binary : ∀ {xs : List Nat},
    (∀ x ∈ xs, x = 0 ∨ x = 1) → xs.sum = xs.countP (fun x => x = 1)
  | [], _ => rfl
  | x :: xs, h => by
    have hx := h x (List.mem_cons_self _ _)
    have hxs := sum_eq_countP_of_binary (fun a ha => h a (List.mem_cons_of_mem _ ha))
    rcases hx with rfl | rfl <;> simp [List.countP_cons, hxs, Nat.add_comm]

/-- `len(A & B)` for index lists representing sets. -/
def interLen (A B : List Nat) : Nat := (A.filter (fun a => a ∈ B)).length

/-- `len(A | B)` for index lists representing sets. -/
def unionLen (A B : List Nat) : Nat := (A ++ B.filter (fun b => ¬ b ∈ A)).length

/-- Insert index `j` into an index list sorted ascending by value, after
all indices of smaller-or-equal value (the stable order used to model
`np.argsort`; the spec allows any fixed deterministic tie rule). -/
def insertAsc (xs : List ℚ) (j : Nat) : List Nat → List Nat
  | [] => [j]
  | i :: rest =>
    if xs.getD j 0 < xs.getD i 0 then j :: i :: rest else i :: insertAsc xs j rest

/-- Model of `np.argsort(row)`: indices `0..n-1` ordered by ascending
value, ties in index order. -/
def argsortRow (xs : List ℚ) : List Nat :=
  (List.range xs.length).foldl (fun acc j => insertAsc xs j acc) []

/-- `np.argsort(row)[-k:]`: the indices of the `k` largest values; NumPy
slicing with `-k` at `k = 0` yields the whole array (`row[-0:] = row`). -/
def topkRow (xs : List ℚ) (k : Nat) : List Nat :=
  if k = 0 then argsortRow xs else (argsortRow xs).drop (xs.length - k)

/-- `np.mean` on a list of rationals (never applied to an empty list by
the code paths proved below without an explicit guard). -/
def npMean (xs : List ℚ) : ℚ := xs.sum / (xs.length : ℚ)

/-- The per-row scores collected by `recall_at_k` (train.py lines 80-84):
rows with empty truth set append nothing. -/
def recallScores (ytrue : List (List Nat)) (proba : List (List ℚ)) (k : Nat) : List ℚ :=
  (ytrue.zip proba).filterMap (fun tp =>
    if (trueSet tp.1).length = 0 then none
    else some ((interLen (trueSet tp.1) (topkRow tp.2 k) : ℚ) / ((trueSet tp.1).length : ℚ)))

/-- `recall_at_k` (train.py lines 78-85): `np.mean(scores) if scores else 0.0`. -/
def recall_at_k (ytrue : List (List Nat)) (proba : List (List ℚ)) (k : Nat) : ℚ :=
  if (recallScores ytrue proba k).length = 0 then 0 else npMean (recallScores ytrue proba k)

/-- The rows with non-empty truth set, as the spec describes them. -/
def recallSpecRows (ytrue : List (List Nat)) (proba : List (List ℚ)) :
    List (List Nat × List ℚ) :=
  (ytrue.zip proba).filter (fun tp => ¬ (trueSet tp.1).length = 0)

/-- The spec's formula for recall@K: the mean, over rows with non-empty
truth set, of `|truth(i) ∩ predicted_set(i)| / |truth(i)|`, and `0` when
no row has a non-empty truth set. -/
def recallSpec (ytrue : List (List Nat)) (proba : List (List ℚ)) (k : Nat) : ℚ :=
  if (recallSpecRows ytrue proba).length = 0 then 0
  else ((recallSpecRows ytrue proba).map (fun tp =>
      (interLen (trueSet tp.1) (topkRow tp.2 k) : ℚ) / ((trueSet tp.1).length : ℚ))).sum /
    ((recallSpecRows ytrue proba).length : ℚ)

theorem filterMap_guard_eq_map_filter {α β : Type} (p : α → Prop) [DecidablePred p]
    (g : α → β) : ∀ l : List α,
      l.filterMap (fun x => if p x then none else some (g x)) =
        (l.filter (fun x => ¬ p x)).map g
  | [] => rfl
  | x :: xs => by
    by_cases hx : p x
    · simp [List.filterMap_cons, List.filter_cons, hx, filterMap_guard_eq_map_filter p g xs]
    · simp [List.filterMap_cons, List.filter_cons, hx, filterMap_guard_eq_map_filter p g xs]

/-- Claim C4: `recall_at_k` equals the mean over rows with non-empty truth set
of `|truth(i) ∩ predicted_set(i)| / |truth(i)|`, rows with empty truth
being excluded, and it returns `0` when no row has a non-empty truth
set. -/
theorem C4_recall_at_k_spec (ytrue : List (List Nat)) (proba : List (List ℚ)) (k : Nat) :
    recall_at_k ytrue proba k = recallSpec ytrue proba k ∧
    ((∀ t ∈ ytrue, trueSet t = []) → recall_at_k ytrue proba k = 0) := by
  have hkey := filterMap_guard_eq_map_filter
      (fun tp : List Nat × List ℚ => (trueSet tp.1).length = 0)
      (fun tp => (interLen (trueSet tp.1) (topkRow tp.2 k) : ℚ) / ((trueSet tp.1).length : ℚ))
      (ytrue.zip proba)
  constructor
  · rw [recall_at_k, recallSpec, recallSpecRows, recallScores, hkey, npMean, List.length_map]
  · intro hall
    have hnil : recallScores ytrue proba k = [] := by
      rw [recallScores, List.filterMap_eq_nil_iff]
      intro tp htp
      obtain ⟨t, p⟩ := tp
      have ht : t ∈ ytrue := (List.of_mem_zip htp).1
      simp [hall t ht]
    rw [recall_at_k, hnil]
    simp

/-- Concrete instantiation of `C4_recall_at_k_spec`: a truth matrix with
only empty truth rows gives recall `0`. -/
theorem C4_recall_at_k_spec_witness :
    recall_at_k [[0, 0], [0, 0]] [[1, 2], [2, 1]] 1 = 0 :=
  (C4_recall_at_k_spec [[0, 0], [0, 0]] [[1, 2], [2, 1]] 1).2 (by decide)

/-- `partial_coverage_score` (train.py lines 104-109): the denominator is
`max(1, np.sum(y_true[i]))`, the clamped sum of the truth row. -/
def partial_coverage_score (ytrue : List (List Nat)) (proba : List (List ℚ)) (k : Nat) : ℚ :=
  npMean ((ytrue.zip proba).map (fun tp =>
    (interLen (trueSet tp.1) (topkRow tp.2 k) : ℚ) / ((max 1 tp.1.sum : Nat) : ℚ)))

/-- The spec's formula for partial coverage: the mean over all rows of
`|truth(i) ∩ predicted_set(i)| / max(1, |truth(i)|)`, with the clamped
cardinality of the truth set as denominator. -/
def partialCoverageSpec (ytrue : List (List Nat)) (proba : List (List ℚ)) (k : Nat) : ℚ :=
  npMean ((ytrue.zip proba).map (fun tp =>
    (interLen (trueSet tp.1) (topkRow tp.2 k) : ℚ) / ((max 1 (trueSet tp.1).length : Nat) : ℚ)))

/-- Claim C5: on binary truth matrices, `partial_coverage_score` is the mean
over all rows (no exclusion) of
`|truth(i) ∩ predicted_set(i)| / max(1, |truth(i)|)`, and a row with
empty truth contributes the term `0/1 = 0` to that mean. -/
theorem C5_partial_coverage_spec (ytrue : List (List Nat)) (proba : List (List ℚ)) (k : Nat)
    (hbin : ∀ t ∈ ytrue, ∀ x ∈ t, x = 0 ∨ x = 1) :
    partial_coverage_score ytrue proba k = partialCoverageSpec ytrue proba k ∧
    (∀ t ∈ ytrue, trueSet t = [] →
      (max 1 t.sum : Nat) = 1 ∧
      ∀ p : List ℚ, (interLen (trueSet t) (topkRow p k) : ℚ) / ((max 1 t.sum : Nat) : ℚ) = 0) := by
  constructor
  · rw [partial_coverage_score, partialCoverageSpec]
    congr 1
    apply List.map_congr_left
    intro tp htp
    have ht : tp.1 ∈ ytrue := (List.of_mem_zip (a := tp.1) (b := tp.2) (by simpa using htp)).1
    rw [show tp.1.sum = (trueSet tp.1).length from by
      rw [trueSet, whereOne_length, sum_eq_countP_of_binary (hbin tp.1 ht)]]
  · intro t ht htrue
    have hcnt : t.countP (fun x => x = 1) = 0 := by
      have := whereOne_length t 0
      rw [show whereOne t 0 = trueSet t from rfl, htrue] at this
      exact this.symm
    have hsum : t.sum = 0 := by
      rw [sum_eq_countP_of_binary (hbin t ht), hcnt]
    refine ⟨by simp [hsum], fun p => ?_⟩
    rw [htrue]
    simp [interLen]

/-- Concrete instantiation of `C5_partial_coverage_spec` on a binary
truth matrix with one empty-truth row. -/
theorem C5_partial_coverage_spec_witness :
    partial_coverage_score [[1, 0], [0, 0]] [[1, 2], [2, 1]] 1 =
      partialCoverageSpec [[1, 0], [0, 0]] [[1, 2], [2, 1]] 1 :=
  (C5_partial_coverage_spec [[1, 0], [0, 0]] [[1, 2], [2, 1]] 1 (by decide)).1

/-- The per-row IoU of `iou_score` (train.py lines 114-120): `1.0` when
both index sets are empty, else `len(t & p) / len(t | p)`. -/
def iouRow (trow prow : List Nat) : ℚ :=
  if trueSet trow = [] ∧ trueSet prow = [] then 1
  else (interLen (trueSet trow) (trueSet prow) : ℚ) /
    (unionLen (trueSet trow) (trueSet prow) : ℚ)

/-- `iou_score`: the mean of the per-row IoU over the zipped rows. -/
def iou_score (ytrue ypred : List (List Nat)) : ℚ :=
  npMean ((ytrue.zip ypred).map (fun tp => iouRow tp.1 tp.2))

/-- Claim C6: the per-row IoU scores `1` on two empty sets, `1` on equal
singletons, `0` on distinct singletons, and `|t ∩ p| / |t ∪ p|` in every
other case. -/
theorem C6_iou_row_cases (trow prow : List Nat) :
    (trueSet trow = [] → trueSet prow = [] → iouRow trow prow = 1) ∧
    (∀ a, trueSet trow = [a] → trueSet prow = [a] → iouRow trow prow = 1) ∧
    (∀ a b, a ≠ b → trueSet trow = [a] → trueSet prow = [b] → iouRow trow prow = 0) ∧
    (¬(trueSet trow = [] ∧ trueSet prow = []) →
      iouRow trow prow = (interLen (trueSet trow) (trueSet prow) : ℚ) /
        (unionLen (trueSet trow) (trueSet prow) : ℚ)) := by
  refine ⟨fun h1 h2 => by simp [iouRow, h1, h2], fun a h1 h2 => ?_, fun a b hab h1 h2 => ?_,
    fun h => by rw [iouRow, if_neg h]⟩
  · rw [iouRow, if_neg (by simp [h1]), h1, h2]
    simp [interLen, unionLen]
  · rw [iouRow, if_neg (by simp [h1]), h1, h2]
    simp [interLen, unionLen, hab, Ne.symm hab]

/-- Concrete instantiation of `C6_iou_row_cases`: distinct singleton truth
and prediction sets give IoU `0`. -/
theorem C6_iou_row_cases_witness : iouRow [1, 0] [0, 1] = 0 :=
  (C6_iou_row_cases [1, 0] [0, 1]).2.2.1 0 1 (by decide) (by decide) (by decide)

/-! ## `apply_quantity_safeguard` (train.py lines 189-195) -/

/-- One safeguarded row, walking the quantity row with its column index
(starting at `s`): a zero at a top-K position is overwritten by `1`. -/
def safeguardRowAux (tk : List Nat) : List Nat → Nat → List Nat
  | [], _ => []
  | q :: qs, s => (if s ∈ tk ∧ q = 0 then 1 else q) :: safeguardRowAux tk qs (s + 1)

def safeguardRow (prow : List ℚ) (qrow : List Nat) (k : Nat) : List Nat :=
  safeguardRowAux (topkRow prow k) qrow 0

/-- `apply_quantity_safeguard` over whole matrices: for each row, the
top-K indices of the probability row force a minimum quantity of `1`. -/
def apply_quantity_safeguard (proba : List (List ℚ)) (qty : List (List Nat)) (k : Nat) :
    List (List Nat) :=
  (proba.zip qty).map (fun pq => safeguardRow pq.1 pq.2 k)

theorem safeguardRowAux_getD (tk : List Nat) :
    ∀ (qs : List Nat) (s j : Nat), j < qs.length →
      (safeguardRowAux tk qs s).getD j 0 =
        if (s + j) ∈ tk ∧ qs.getD j 0 = 0 then 1 else qs.getD j 0
  | [], _, j, h => absurd h (by simp)
  | q :: qs, s, 0, _ => by simp [safeguardRowAux]
  | q :: qs, s, j + 1, h => by
    have := safeguardRowAux_getD tk qs (s + 1) j (Nat.lt_of_succ_lt_succ h)
    simpa [safeguardRowAux, Nat.add_assoc, Nat.add_comm 1 j] using this

theorem getD_zip : ∀ (l₁ : List α) (l₂ : List β) (i : Nat) (d₁ : α) (d₂ : β),
    i < l₁.length → i < l₂.length →
    (l₁.zip l₂).getD i (d₁, d₂) = (l₁.getD i d₁, l₂.getD i d₂)
  | [], _, i, _, _, h, _ => absurd h (by simp)
  | _ :: _, [], i, _, _, _, h => absurd h (by simp)
  | _ :: _, _ :: _, 0, _, _, _, _ => rfl
  | a :: l₁, b :: l₂, i + 1, d₁, d₂, h₁, h₂ =>
    getD_zip l₁ l₂ i d₁ d₂ (Nat.lt_of_succ_lt_succ h₁) (Nat.lt_of_succ_lt_succ h₂)

/-- Claim C3: after `apply_quantity_safeguard`, every row has quantity `≥ 1` at
every label index in that row's top-K set of the probability matrix. -/
theorem C3_safeguard_topk_min_one (proba : List (List ℚ)) (qty : List (List Nat))
    (k i j : Nat) (hi : i < proba.length) (hi2 : i < qty.length)
    (hj : j < (qty.getD i []).length) (htop : j ∈ topkRow (proba.getD i []) k) :
    1 ≤ ((apply_quantity_safeguard proba qty k).getD i []).getD j 0 := by
  have hzip : i < (proba.zip qty).length := by
    rw [List.length_zip]
    exact lt_min hi hi2
  rw [apply_quantity_safeguard,
    getD_map (fun pq => safeguardRow pq.1 pq.2 k) [] (([], []) : List ℚ × List Nat) _ i hzip,
    getD_zip proba qty i [] [] hi hi2, safeguardRow,
    safeguardRowAux_getD _ _ 0 j hj, Nat.zero_add]
  by_cases hq : (qty.getD i []).getD j 0 = 0
  · rw [if_pos ⟨htop, hq⟩]
  · rw [if_neg (fun hc => hq hc.2)]
    exact Nat.one_le_iff_ne_zero.2 hq

/-- Concrete instantiation of `C3_safeguard_topk_min_one`: label 0 is the
top-1 label of the only row and its zero quantity is raised to `1`. -/
theorem C3_safeguard_topk_min_one_witness :
    1 ≤ ((apply_quantity_safeguard [[2, 1]] [[0, 5]] 1).getD 0 []).getD 0 0 :=
  C3_safeguard_topk_min_one [[2, 1]] [[0, 5]] 1 0 0
    (by decide) (by decide) (by decide) (by decide)

theorem safeguardRowAux_idem (tk : List Nat) :
    ∀ (qs : List Nat) (s : Nat),
      safeguardRowAux tk (safeguardRowAux tk qs s) s = safeguardRowAux tk qs s
  | [], _ => rfl
  | q :: qs, s => by
    by_cases hc : s ∈ tk ∧ q = 0
    · have h1 : ¬(s ∈ tk ∧ (1 : Nat) = 0) := fun h => absurd h.2 (by decide)
      simp only [safeguardRowAux, if_pos hc, if_neg h1, safeguardRowAux_idem tk qs (s + 1)]
    · simp only [safeguardRowAux, if_neg hc, safeguardRowAux_idem tk qs (s + 1)]

/-- Claim C9: `apply_quantity_safeguard` is idempotent in its quantity argument
for a fixed probability matrix (the CV loop re-applies it to the whole
shared quantity matrix after every fold). -/
theorem C9_safeguard_idempotent : ∀ (proba : List (List ℚ)) (qty : List (List Nat)) (k : Nat),
    apply_quantity_safeguard proba (apply_quantity_safeguard proba qty k) k =
      apply_quantity_safeguard proba qty k
  | [], qty, k => rfl
  | p :: ps, [], k => rfl
  | p :: ps, q :: qs, k => by
    have hrow : safeguardRow p (safeguardRow p q k) k = safeguardRow p q k :=
      safeguardRowAux_idem (topkRow p k) q 0
    have ih := C9_safeguard_idempotent ps qs k
    simp only [apply_quantity_safeguard, List.zip_cons_cons, List.map_cons] at ih ⊢
    rw [hrow, ih]

/-! ## `accuracy_counts` (train.py lines 122-124) -/

/-- The cells selected by the boolean mask `y_true_cnt > 0`, in row-major
order, paired with the corresponding predicted cells. -/
def posCells : List (List Nat × List Nat) → List (Nat × Nat)
  | [] => []
  | tp :: rest => (tp.1.zip tp.2).filter (fun c => 0 < c.1) ++ posCells rest

/-- `accuracy_counts`: the mean of `y_true_cnt[mask] == y_pred_cnt[mask]`.
NumPy's mean of an empty selection is NaN, modelled as `none`. -/
def accuracy_counts (ytc ypc : List (List Nat)) : Option ℚ :=
  if (posCells (ytc.zip ypc)).length = 0 then none
  else some (((posCells (ytc.zip ypc)).countP (fun c => c.1 = c.2) : ℚ) /
    ((posCells (ytc.zip ypc)).length : ℚ))

theorem exists_zip_fst {x : Nat} : ∀ {t p : List Nat}, x ∈ t → t.length = p.length →
    ∃ c ∈ t.zip p, c.1 = x := by
  intro t
  induction t with
  | nil => intro p hx _; exact absurd hx (List.not_mem_nil x)
  | cons a rest ih =>
    intro p hx hlen
    cases p with
    | nil => simp at hlen
    | cons b q =>
      rcases List.mem_cons.1 hx with rfl | hx'
      · exact ⟨(x, b), List.mem_cons_self _ _, rfl⟩
      · obtain ⟨c, hc, hcx⟩ := ih hx' (Nat.succ_injective hlen)
        exact ⟨c, List.mem_cons_of_mem _ hc, hcx⟩

theorem posCells_ne_nil_of_pos :
    ∀ {ytc ypc : List (List Nat)},
      List.Forall₂ (fun t p => t.length = p.length) ytc ypc →
      (∃ t ∈ ytc, ∃ x ∈ t, 0 < x) → posCells (ytc.zip ypc) ≠ [] := by
  intro ytc ypc hshape
  induction hshape with
  | nil => rintro ⟨t, ht, _⟩; exact absurd ht (List.not_mem_nil t)
  | @cons t₀ p₀ ytc' ypc' hlen _ ih =>
    rintro ⟨t, ht, x, hxmem, hxpos⟩ hnil
    rw [List.zip_cons_cons, posCells] at hnil
    rcases List.append_eq_nil.1 hnil with ⟨h1, h2⟩
    rcases List.mem_cons.1 ht with rfl | ht'
    · obtain ⟨c, hc, hcx⟩ := exists_zip_fst hxmem hlen
      have : c ∈ (t.zip p₀).filter (fun c => 0 < c.1) :=
        List.mem_filter.2 ⟨hc, decide_eq_true (hcx ▸ hxpos)⟩
      rw [h1] at this
      exact List.not_mem_nil c this
    · exact ih ⟨t, ht', x, hxmem, hxpos⟩ h2

theorem posCells_eq_nil_of_all_zero :
    ∀ {ytc ypc : List (List Nat)}, (∀ t ∈ ytc, ∀ x ∈ t, x = 0) →
      posCells (ytc.zip ypc) = [] := by
  intro ytc
  induction ytc with
  | nil => intro ypc _; cases ypc <;> rfl
  | cons t rest ih =>
    intro ypc hz
    cases ypc with
    | nil => rfl
    | cons p q =>
      rw [List.zip_cons_cons, posCells]
      have h1 : (t.zip p).filter (fun c => 0 < c.1) = [] := by
        rw [List.filter_eq_nil_iff]
        intro c hc
        have : c.1 ∈ t := by
          obtain ⟨a, b⟩ := c
          exact (List.of_mem_zip hc).1
        simp [hz t (List.mem_cons_self _ _) c.1 this]
      rw [h1, ih (fun t' ht' => hz t' (List.mem_cons_of_mem _ ht')), List.nil_append]

/-- Claim C10: `accuracy_counts` is partial at its interface: with at least one
positive truth-quantity cell it yields a fraction in `[0, 1]`, but on an
all-zero truth matrix the mean runs over an empty selection and no valid
numeric result is produced (`none`, NaN in NumPy). -/
theorem C10_accuracy_counts_domain (ytc ypc : List (List Nat))
    (hshape : List.Forall₂ (fun t p => t.length = p.length) ytc ypc) :
    ((∃ t ∈ ytc, ∃ x ∈ t, 0 < x) →
      ∃ r, accuracy_counts ytc ypc = some r ∧ 0 ≤ r ∧ r ≤ 1) ∧
    ((∀ t ∈ ytc, ∀ x ∈ t, x = 0) → accuracy_counts ytc ypc = none) := by
  constructor
  · intro hex
    have hne := posCells_ne_nil_of_pos hshape hex
    have hlenpos : 0 < (posCells (ytc.zip ypc)).length :=
      List.length_pos.2 hne
    refine ⟨((posCells (ytc.zip ypc)).countP (fun c => c.1 = c.2) : ℚ) /
      ((posCells (ytc.zip ypc)).length : ℚ), ?_, ?_, ?_⟩
    · rw [accuracy_counts, if_neg (by omega)]
    · exact div_nonneg (Nat.cast_nonneg _) (Nat.cast_nonneg _)
    · rw [div_le_one (by exact_mod_cast hlenpos)]
      exact_mod_cast List.countP_le_length _
  · intro hz
    rw [accuracy_counts, if_pos]
    rw [posCells_eq_nil_of_all_zero hz]
    rfl

/-- Concrete instantiation of `C10_accuracy_counts_domain`: an all-zero
truth quantity matrix produces no numeric result. -/
theorem C10_accuracy_counts_domain_witness : accuracy_counts [[0, 0]] [[1, 0]] = none :=
  (C10_accuracy_counts_domain [[0, 0]] [[1, 0]]
    (List.Forall₂.cons rfl List.Forall₂.nil)).2 (by decide)

/-! ## Stage-2 quantity fallback (train.py lines 232-248 and 374-389)

Both paths restrict to the training rows with positive quantity; with
fewer than 3 such rows or a single distinct quantity value they train a
`DummyClassifier(strategy="constant")`, whose `predict` returns the
constant on every validation row.  The CV path takes the constant from
`np.bincount(yq).argmax()`, the final refit from `np.unique(...)[0]`. -/

/-- `np.argmax` over the counts of the values `0..n-1` in `yq`: the first
value attaining the maximal count. -/
def argmaxCountUpTo (yq : List Nat) (n : Nat) : Nat :=
  (List.range n).foldl (fun best v => if yq.count v > yq.count best then v else best) 0

/-- `np.bincount(yq).argmax()`. -/
def bincountArgmax (yq : List Nat) : Nat := argmaxCountUpTo yq (maxElem yq + 1)

/-- The CV-path fallback constant (train.py line 238). -/
def cvConstant (yq : List Nat) : Nat := if yq.length = 0 then 0 else bincountArgmax yq

/-- The final-refit fallback constant (train.py line 386):
`int(uniq_vals[0])` when any positive row exists, else `0`. -/
def finalConstant (yq : List Nat) : Nat :=
  if yq.length = 0 then 0 else (uniqueSorted yq).headD 0

/-- `Y_cnt[tr, lbl][mask]`: the positive entries of a training column. -/
def positives (col : List Nat) : List Nat := col.filter (fun x => 0 < x)

/-- Stage-2 prediction for one label on one fold (train.py lines 232-248);
`svm` abstracts `LinearSVC.fit(Xt_tr[mask], yq).predict` on the `nTe`
validation rows. -/
def cvQtyCol (col : List Nat) (nTe : Nat) (svm : List Nat → Nat → Nat) : List Nat :=
  if (positives col).length < 3 ∨ (uniqueSorted (positives col)).length < 2 then
    List.replicate nTe (cvConstant (positives col))
  else (List.range nTe).map (svm (positives col))

/-- Stage-2 training in the final full-data refit (train.py lines
374-389), viewed through the exported model's predictions on `nTe` rows. -/
def finalQtyCol (col : List Nat) (nTe : Nat) (svm : List Nat → Nat → Nat) : List Nat :=
  if 3 ≤ (positives col).length ∧ 2 ≤ (uniqueSorted (positives col)).length then
    (List.range nTe).map (svm (positives col))
  else List.replicate nTe (finalConstant (positives col))

theorem argmaxCountUpTo_succ (yq : List Nat) (n : Nat) :
    argmaxCountUpTo yq (n + 1) =
      if yq.count n > yq.count (argmaxCountUpTo yq n) then n else argmaxCountUpTo yq n := by
  unfold argmaxCountUpTo
  rw [List.range_succ, List.foldl_append]
  rfl

theorem count_le_argmaxCountUpTo (yq : List Nat) :
    ∀ (n v : Nat), v < n → yq.count v ≤ yq.count (argmaxCountUpTo yq n)
  | 0, v, h => absurd h (Nat.not_lt_zero v)
  | n + 1, v, h => by
    rw [argmaxCountUpTo_succ]
    by_cases hgt : yq.count n > yq.count (argmaxCountUpTo yq n)
    · rw [if_pos hgt]
      rcases Nat.lt_succ_iff_lt_or_eq.1 h with h' | rfl
      · exact Nat.le_trans (count_le_argmaxCountUpTo yq n v h') (Nat.le_of_lt hgt)
      · exact Nat.le_refl _
    · rw [if_neg hgt]
      rcases Nat.lt_succ_iff_lt_or_eq.1 h with h' | rfl
      · exact count_le_argmaxCountUpTo yq n v h'
      · exact Nat.le_of_not_lt hgt

/-- `np.bincount(yq).argmax()` attains a maximal count. -/
theorem count_le_bincountArgmax {yq : List Nat} {v : Nat} (hv : v ∈ yq) :
    yq.count v ≤ yq.count (bincountArgmax yq) :=
  count_le_argmaxCountUpTo yq _ v (Nat.lt_succ_of_le (le_maxElem hv))

theorem bincountArgmax_mem {yq : List Nat} (h : yq ≠ []) : bincountArgmax yq ∈ yq := by
  rcases yq with _ | ⟨x, rest⟩
  · exact absurd rfl h
  · have hx : 0 < (x :: rest).count x :=
      List.count_pos_iff.2 (List.mem_cons_self x rest)
    have hle := count_le_bincountArgmax (List.mem_cons_self x rest)
    exact List.count_pos_iff.1 (Nat.lt_of_lt_of_le hx hle)

theorem headD_uniqueSorted_mem {yq : List Nat} (h : yq ≠ []) :
    (uniqueSorted yq).headD 0 ∈ yq := by
  have h2 := uniqueSorted_ne_nil h
  rcases hu : uniqueSorted yq with _ | ⟨x, l⟩
  · exact absurd hu h2
  · rw [List.headD_cons]
    exact mem_uniqueSorted.1 (hu ▸ List.mem_cons_self _ _)

/-- In a list with fewer than 3 elements, or with all elements equal,
every member attains a maximal count, so any member is a mode. -/
theorem count_le_of_short_or_const {yq : List Nat} {c : Nat} (hc : c ∈ yq)
    (hfb : yq.length < 3 ∨ ∀ a ∈ yq, ∀ b ∈ yq, a = b) :
    ∀ v ∈ yq, yq.count v ≤ yq.count c := by
  intro v hv
  rcases hfb with hlen | hconst
  · match yq, hlen with
    | [], _ => exact absurd hc (List.not_mem_nil c)
    | [a], _ =>
      have h1 : v = a := List.mem_singleton.1 hv
      have h2 : c = a := List.mem_singleton.1 hc
      rw [h1, h2]
    | [a, b], _ =>
      by_cases hab : a = b
      · subst hab
        have h1 : v = a := by rcases List.mem_cons.1 hv with h | h <;> simpa using h
        have h2 : c = a := by rcases List.mem_cons.1 hc with h | h <;> simpa using h
        rw [h1, h2]
      · have hcv : ∀ x, x ∈ ([a, b] : List Nat) → List.count x [a, b] = 1 := by
          intro x hx
          rcases List.mem_cons.1 hx with rfl | hx'
          · simp [List.count_cons, List.count_nil, hab, Ne.symm hab]
          · have : x = b := by simpa using hx'
            subst this
            simp [List.count_cons, List.count_nil, hab]
        rw [hcv v hv, hcv c hc]
  · have : v = c := hconst v hv c hc
    rw [this]

/-- Claim C2: whenever a label has fewer than 3 positive-quantity training rows
or all of them share one quantity value, both the per-fold CV path and
the final-refit path produce a constant predictor, the constant being a
most-frequent positive quantity (`0` with no positive rows at all); with
exactly two positive examples both equal to `4`, both paths predict `4`
on every validation row. -/
theorem C2_quantity_constant_fallback (col : List Nat) (nTe : Nat)
    (svmCV svmFinal : List Nat → Nat → Nat)
    (hfb : (positives col).length < 3 ∨
      ∀ a ∈ positives col, ∀ b ∈ positives col, a = b) :
    (∃ c1, cvQtyCol col nTe svmCV = List.replicate nTe c1 ∧
      ((positives col = [] ∧ c1 = 0) ∨
        (c1 ∈ positives col ∧
          ∀ v ∈ positives col, (positives col).count v ≤ (positives col).count c1))) ∧
    (∃ c2, finalQtyCol col nTe svmFinal = List.replicate nTe c2 ∧
      ((positives col = [] ∧ c2 = 0) ∨
        (c2 ∈ positives col ∧
          ∀ v ∈ positives col, (positives col).count v ≤ (positives col).count c2))) ∧
    (positives col = [4, 4] →
      cvQtyCol col nTe svmCV = List.replicate nTe 4 ∧
      finalQtyCol col nTe svmFinal = List.replicate nTe 4) := by
  have hcond : (positives col).length < 3 ∨ (uniqueSorted (positives col)).length < 2 := by
    rcases hfb with h | h
    · exact Or.inl h
    · exact Or.inr (uniqueSorted_short_of_all_eq h)
  have hnotcond : ¬(3 ≤ (positives col).length ∧ 2 ≤ (uniqueSorted (positives col)).length) := by
    rcases hcond with h | h
    · exact fun hc => absurd hc.1 (Nat.not_le_of_lt h)
    · exact fun hc => absurd hc.2 (Nat.not_le_of_lt h)
  refine ⟨⟨cvConstant (positives col), by rw [cvQtyCol, if_pos hcond], ?_⟩,
    ⟨finalConstant (positives col), by rw [finalQtyCol, if_neg hnotcond], ?_⟩, ?_⟩
  · by_cases hnil : positives col = []
    · exact Or.inl ⟨hnil, by rw [cvConstant, if_pos (by rw [hnil]; rfl)]⟩
    · have hlen : ¬(positives col).length = 0 := fun h =>
        hnil (List.length_eq_zero.1 h)
      have hcEq : cvConstant (positives col) = bincountArgmax (positives col) := by
        rw [cvConstant, if_neg hlen]
      rw [hcEq]
      exact Or.inr ⟨bincountArgmax_mem hnil, fun v hv => count_le_bincountArgmax hv⟩
  · by_cases hnil : positives col = []
    · exact Or.inl ⟨hnil, by rw [finalConstant, if_pos (by rw [hnil]; rfl)]⟩
    · have hlen : ¬(positives col).length = 0 := fun h =>
        hnil (List.length_eq_zero.1 h)
      have hcEq : finalConstant (positives col) = (uniqueSorted (positives col)).headD 0 := by
        rw [finalConstant, if_neg hlen]
      rw [hcEq]
      exact Or.inr ⟨headD_uniqueSorted_mem hnil,
        count_le_of_short_or_const (headD_uniqueSorted_mem hnil) hfb⟩
  · intro h44
    constructor
    · rw [cvQtyCol, if_pos hcond, h44,
        show cvConstant [4, 4] = 4 from by decide]
    · rw [finalQtyCol, if_neg hnotcond, h44,
        show finalConstant [4, 4] = 4 from by decide]

/-- Concrete instantiation of `C2_quantity_constant_fallback`: a column
with positives `[4, 4]` makes both paths predict `4` on every validation
row. -/
theorem C2_quantity_constant_fallback_witness :
    cvQtyCol [0, 4, 0, 4] 2 (fun _ _ => 0) = List.replicate 2 4 ∧
    finalQtyCol [0, 4, 0, 4] 2 (fun _ _ => 0) = List.replicate 2 4 :=
  (C2_quantity_constant_fallback [0, 4, 0, 4] 2 (fun _ _ => 0) (fun _ _ => 0)
    (by decide)).2.2 (by decide)

/-! ## Stage-1 label-diversity skip (train.py lines 205-229)

`proba` is zero-initialised (`np.zeros`); for a label whose training
column `Y_bin[tr, lbl]` shows fewer than 2 distinct values the loop body
is skipped by `continue`, so the fold's validation cells of that column
keep the value `0`; otherwise the calibrated classifier (abstracted by
`clf`) fills them. -/

/-- `Y[idxs, lbl]`: a matrix column restricted to the rows `idxs`. -/
def colAt (Y : List (List Nat)) (idxs : List Nat) (lbl : Nat) : List Nat :=
  idxs.map (fun i => (Y.getD i []).getD lbl 0)

/-- The probability entries written into one fold's validation rows for
one label by Stage 1 (a total function: the skip is silent). -/
def stage1ColProba (Y : List (List Nat)) (tr : List Nat) (lbl nTe : Nat)
    (clf : List Nat → Nat → ℚ) : List ℚ :=
  if (uniqueSorted (colAt Y tr lbl)).length < 2 then List.replicate nTe 0
  else (List.range nTe).map (clf (colAt Y tr lbl))

/-- Claim C8: when a fold's training rows contain fewer than 2 distinct presence
values in column `lbl` of `Y_bin`, Stage 1 skips the label (the embedding
stays a total function, no error value) and the probability entries of the
fold's validation rows in that column remain `0`, whatever the classifier
would have predicted. -/
theorem C8_label_diversity_skip (Y : List (List Nat)) (tr : List Nat) (lbl nTe : Nat)
    (clf : List Nat → Nat → ℚ)
    (h : (uniqueSorted (colAt Y tr lbl)).length < 2) :
    stage1ColProba Y tr lbl nTe clf = List.replicate nTe 0 ∧
    ∀ x ∈ stage1ColProba Y tr lbl nTe clf, x = 0 := by
  have heq : stage1ColProba Y tr lbl nTe clf = List.replicate nTe 0 := by
    rw [stage1ColProba, if_pos h]
  exact ⟨heq, fun x hx => ((List.mem_replicate).1 (heq ▸ hx)).2⟩

/-- Concrete instantiation of `C8_label_diversity_skip`: a single-class
training column is skipped even for a classifier that would predict `1`. -/
theorem C8_label_diversity_skip_witness :
    stage1ColProba [[1], [1], [0]] [0, 1] 0 3 (fun _ _ => 1) = List.replicate 3 0 :=
  (C8_label_diversity_skip [[1], [1], [0]] [0, 1] 0 3 (fun _ _ => 1) (by decide)).1

/-! ## Grouped cross-validation split (train.py lines 203-211)

`GroupKFold(n_splits=K).split(X, Y, groups)` computes one fold per
distinct group: the groups are ordered by decreasing sample count and
greedily assigned, heaviest first, to the currently lightest fold; a
sample's fold is its group's fold and fold `f`'s validation set is
`np.where(fold_of_sample == f)[0]`. -/

/-- `np.argmin`: the first index of the minimum of a non-empty list. -/
def argminIdx : List Nat → Nat
  | [] => 0
  | [_] => 0
  | x :: y :: rest =>
    if x ≤ (y :: rest).getD (argminIdx (y :: rest)) 0 then 0
    else argminIdx (y :: rest) + 1

theorem argminIdx_lt : ∀ (l : List Nat), l ≠ [] → argminIdx l < l.length
  | [], h => absurd rfl h
  | [_], _ => by simp [argminIdx]
  | x :: y :: rest, _ => by
    rw [argminIdx.eq_3]
    by_cases h : x ≤ (y :: rest).getD (argminIdx (y :: rest)) 0
    · rw [if_pos h]; simp
    · rw [if_neg h]
      have := argminIdx_lt (y :: rest) (by simp)
      simpa [List.length_cons] using Nat.succ_lt_succ this

/-- Insert a group into a list ordered ascending by `w`, after entries of
equal weight (the stable order used to model `np.argsort` on counts). -/
def insertByWeight (w : Nat → Nat) (g : Nat) : List Nat → List Nat
  | [] => [g]
  | h :: t => if w g < w h then g :: h :: t else h :: insertByWeight w g t

theorem mem_insertByWeight {w : Nat → Nat} {g x : Nat} :
    ∀ {l : List Nat}, x ∈ insertByWeight w g l ↔ x = g ∨ x ∈ l
  | [] => by simp [insertByWeight]
  | h :: t => by
    rw [insertByWeight]
    by_cases hw : w g < w h
    · rw [if_pos hw]; simp
    · rw [if_neg hw]
      simp only [List.mem_cons, mem_insertByWeight (l := t)]
      tauto

theorem mem_foldl_insertByWeight {w : Nat → Nat} {x : Nat} :
    ∀ (l acc : List Nat),
      x ∈ l.foldl (fun acc g => insertByWeight w g acc) acc ↔ x ∈ acc ∨ x ∈ l
  | [], acc => by simp
  | g :: gs, acc => by
    rw [List.foldl_cons, mem_foldl_insertByWeight gs, mem_insertByWeight]
    simp only [List.mem_cons]
    tauto

/-- `np.argsort(n_samples_per_group)[::-1]`: the distinct groups ordered
by decreasing sample count (a fixed deterministic tie rule). -/
def groupOrder (groups : List Nat) : List Nat :=
  ((uniqueSorted groups).foldl
    (fun acc g => insertByWeight (fun g0 => groups.count g0) g acc) []).reverse

theorem mem_groupOrder {groups : List Nat} {g : Nat} :
    g ∈ groupOrder groups ↔ g ∈ groups := by
  rw [groupOrder, List.mem_reverse, mem_foldl_insertByWeight]
  simp [mem_uniqueSorted]

/-- The greedy balancing loop of `GroupKFold`: each group in order goes to
the currently lightest fold, whose weight then grows by the group's
sample count. -/
def greedyAssign (wt : Nat → Nat) : List Nat → List Nat → List (Nat × Nat)
  | [], _ => []
  | g :: gs, sizes =>
    (g, argminIdx sizes) ::
      greedyAssign wt gs (sizes.set (argminIdx sizes) (sizes.getD (argminIdx sizes) 0 + wt g))

def groupFoldAssign (groups : List Nat) (k : Nat) : List (Nat × Nat) :=
  greedyAssign (fun g => groups.count g) (groupOrder groups) (List.replicate k 0)

/-- First-match lookup in the assignment association list. -/
def findFold : List (Nat × Nat) → Nat → Option Nat
  | [], _ => none
  | (g, f) :: rest, g0 => if g0 = g then some f else findFold rest g0

/-- `group_to_fold[groups[i]]`: the fold of a sample's group. -/
def groupToFold (groups : List Nat) (k g : Nat) : Nat :=
  (findFold (groupFoldAssign groups k) g).getD 0

/-- The validation index set of fold `f`. -/
def valSet (groups : List Nat) (k f : Nat) : List Nat :=
  (List.range groups.length).filter
    (fun i => groupToFold groups k (groups.getD i 0) = f)

theorem findFold_greedyAssign (wt : Nat → Nat) {g0 : Nat} :
    ∀ (gs sizes : List Nat), g0 ∈ gs → sizes ≠ [] →
      ∃ f, findFold (greedyAssign wt gs sizes) g0 = some f ∧ f < sizes.length := by
  intro gs
  induction gs with
  | nil => intro sizes h _; exact absurd h (List.not_mem_nil g0)
  | cons g rest ih =>
    intro sizes hmem hne
    rw [greedyAssign, findFold]
    by_cases hg : g0 = g
    · exact ⟨argminIdx sizes, by rw [if_pos hg], argminIdx_lt sizes hne⟩
    · have hmem' : g0 ∈ rest := by
        rcases List.mem_cons.1 hmem with h | h
        · exact absurd h hg
        · exact h
      have hlen : (sizes.set (argminIdx sizes) (sizes.getD (argminIdx sizes) 0 + wt g)).length
          = sizes.length := List.length_set _ _ _
      have hne' : sizes.set (argminIdx sizes) (sizes.getD (argminIdx sizes) 0 + wt g) ≠ [] := by
        intro hcontra
        apply hne
        have := congrArg List.length hcontra
        rw [hlen] at this
        exact List.length_eq_zero.1 this
      obtain ⟨f, hf, hfk⟩ := ih _ hmem' hne'
      exact ⟨f, by rw [if_neg hg]; exact hf, by rw [← hlen]; exact hfk⟩

theorem groupToFold_lt {groups : List Nat} {k g : Nat} (hk : 0 < k) (hg : g ∈ groups) :
    groupToFold groups k g < k := by
  have hne : List.replicate k 0 ≠ ([] : List Nat) := by
    intro h
    have h0 := congrArg List.length h
    simp [List.length_replicate] at h0
    omega
  obtain ⟨f, hf, hfk⟩ := findFold_greedyAssign (fun g0 => groups.count g0)
    (groupOrder groups) (List.replicate k 0) (mem_groupOrder.2 hg) hne
  rw [groupToFold, groupFoldAssign, hf]
  rw [List.length_replicate] at hfk
  exact hfk

theorem mem_valSet {groups : List Nat} {k f i : Nat} :
    i ∈ valSet groups k f ↔
      i < groups.length ∧ groupToFold groups k (groups.getD i 0) = f := by
  rw [valSet, List.mem_filter, List.mem_range]
  exact and_congr Iff.rfl ⟨of_decide_eq_true, decide_eq_true⟩

/-- Claim C7: in the grouped fold plan, samples sharing a group land in the same
fold (no group is split across two validation sets), the validation sets
of distinct folds are disjoint, and the union of the `k` validation sets
is exactly the full sample index set. -/
theorem C7_grouped_fold_partition (groups : List Nat) (k : Nat) (hk : 0 < k) :
    (∀ i j f g, i ∈ valSet groups k f → j ∈ valSet groups k g →
      groups.getD i 0 = groups.getD j 0 → f = g) ∧
    (∀ f g, f ≠ g → ∀ i, i ∈ valSet groups k f → i ∉ valSet groups k g) ∧
    (∀ i, i < groups.length ↔ ∃ f, f < k ∧ i ∈ valSet groups k f) := by
  refine ⟨fun i j f g hi hj hgrp => ?_, fun f g hfg i hi hj => ?_, fun i => ⟨fun hi => ?_, ?_⟩⟩
  · have h1 := (mem_valSet.1 hi).2
    have h2 := (mem_valSet.1 hj).2
    rw [← h1, ← h2, hgrp]
  · exact hfg ((mem_valSet.1 hi).2.symm.trans (mem_valSet.1 hj).2)
  · refine ⟨groupToFold groups k (groups.getD i 0), ?_, mem_valSet.2 ⟨hi, rfl⟩⟩
    exact groupToFold_lt hk (getD_mem_of_lt 0 groups i hi)
  · rintro ⟨f, _, hmem⟩
    exact (mem_valSet.1 hmem).1

/-- Concrete instantiation of `C7_grouped_fold_partition`: with groups
`[7, 7, 8]` and `k = 2`, sample `1` lies in some fold's validation set. -/
theorem C7_grouped_fold_partition_witness :
    (1 : Nat) < 3 ↔ ∃ f, f < 2 ∧ 1 ∈ valSet [7, 7, 8] 2 f :=
  (C7_grouped_fold_partition [7, 7, 8] 2 (by decide)).2.2 1

end Train
